import Mathlib

/-!
Verification of the mission-sequencing cost optimizer of
`me_roadmap/data_processing/build_roadmap_v3.py`.

The data model: every mission (use case) is a row of `(readiness, dependency)`
pairs, one pair per capability, aligned by capability across missions.
`cost_function` walks an ordered list of mission rows, accumulating per
capability the readiness reached so far, charging each step the upgrade
`max(0, new - old)` plus a carried penalty, and returns the grand total.
`cost_wrapper` turns a continuous vector into a permutation via argsort.

Numbers are modelled as rationals (the Python floats hold small decimal
values; no rounding behaviour is relied upon by any claim).
-/

namespace Roadmap

/-- A capability entry `(readiness, dependency)`, as stored in
`use_case_data`: upstream loading pairs each capability's readiness value
with its dependency value for one mission. -/
abbrev CapEntry := ℚ × ℚ

/-- One mission's row: its `(readiness, dependency)` pair for every
capability, in the shared capability order. -/
abbrev MissionRow := List CapEntry

/-- `dependency_threshold` as selected by `active_model` in
`cost_function`: model 1 uses 0.9, model 2 uses 0.5, model 3 uses 0.2. -/
def dependency_threshold (active_model : ℕ) : ℚ :=
  if active_model = 1 then 9/10 else if active_model = 2 then 1/2 else 1/5

/-- One step of the readiness progression (line 187 of
`build_roadmap_v3.py`): per capability, `max(lr, rr)` when the dependency
is below the threshold, else `max(lr, rr, 9)`. -/
def stepReadiness (tau : ℚ) (lastR : List ℚ) (row : MissionRow) : List ℚ :=
  List.zipWith (fun lr e => if e.2 < tau then max lr e.1 else max (max lr e.1) 9) lastR row

/-- The readiness level one mission row forces for one capability: the
baseline readiness, raised to at least 9 when the dependency is at or
above the threshold. The step rule of line 187 is the pointwise maximum
of the accumulated readiness with this level. -/
def forcedLevel (tau : ℚ) (e : CapEntry) : ℚ :=
  if e.2 < tau then e.1 else max e.1 9

/-- One step of the upgrade cost (line 191): `max(0, nr - lr)` per
capability. -/
def stepUpgrade (newR lastR : List ℚ) : List ℚ :=
  List.zipWith (fun nr lr => max 0 (nr - lr)) newR lastR

/-- One step of the time penalty (line 195): carry the previous penalty
value when the previous step had a positive penalty or a positive
upgrade, else 0. -/
def stepPenalty (lastP lastU : List ℚ) : List ℚ :=
  List.zipWith (fun lp lu => if 0 < lp ∨ 0 < lu then lp else 0) lastP lastU

/-- The loop body of `cost_function` (lines 153-206), accumulating the
readiness-progression, upgrade-cost and penalty-cost matrices. The state
`(lastR, lastU, lastP)` is the previous row of each matrix (zeros at the
first step, lines 178-182). -/
def costFold (tau : ℚ) (lastR lastU lastP : List ℚ) :
    List MissionRow → List (List ℚ) × List (List ℚ) × List (List ℚ)
  | [] => ([], [], [])
  | row :: rest =>
      let nr := stepReadiness tau lastR row
      let nu := stepUpgrade nr lastR
      let np2 := stepPenalty lastP lastU
      let r3 := costFold tau nr nu np2 rest
      (nr :: r3.1, nu :: r3.2.1, np2 :: r3.2.2)

/-- The three matrices built by `cost_function` for an ordered list of
mission rows. The initial state is all zeros, sized from the first row
(lines 180-182); an empty ordering yields empty matrices (in the Python
an empty ordering would raise an IndexError on the dead variable
`readiness_so_far` before the loop; no claim concerns that case). -/
def buildMatrices (tau : ℚ) (rows : List MissionRow) :
    List (List ℚ) × List (List ℚ) × List (List ℚ) :=
  match rows with
  | [] => ([], [], [])
  | r :: _ => costFold tau (r.map fun _ => 0) (r.map fun _ => 0) (r.map fun _ => 0) rows

/-- `readiness_progression_matrix` of `cost_function`. -/
def readiness_progression_matrix (tau : ℚ) (rows : List MissionRow) : List (List ℚ) :=
  (buildMatrices tau rows).1

/-- `upgrade_cost_matrix` of `cost_function`. -/
def upgrade_cost_matrix (tau : ℚ) (rows : List MissionRow) : List (List ℚ) :=
  (buildMatrices tau rows).2.1

/-- `penalty_cost_matrix` of `cost_function`. -/
def penalty_cost_matrix (tau : ℚ) (rows : List MissionRow) : List (List ℚ) :=
  (buildMatrices tau rows).2.2

/-- `cost_progression_matrix`: per step, upgrade plus penalty (line 199). -/
def cost_progression_matrix (tau : ℚ) (rows : List MissionRow) : List (List ℚ) :=
  List.zipWith (List.zipWith (· + ·)) (upgrade_cost_matrix tau rows) (penalty_cost_matrix tau rows)

/-- `cost_function`'s return value (line 209): the sum of every entry of
the cost progression matrix. -/
def cost_function (tau : ℚ) (rows : List MissionRow) : ℚ :=
  ((cost_progression_matrix tau rows).map List.sum).sum

/-- Applying a permutation vector to the mission data: `cost_function`
lines 140-141 order `use_case_data` by the indices of `p_vector`. An
out-of-range index (never produced by `argsort`) defaults to an empty
row. -/
def order_rows (data : List MissionRow) (p : List ℕ) : List MissionRow :=
  p.map (fun i => data.getD i [])

/-- The index comparison underlying the argsort model: index `i` comes
before `j` when its value is smaller, ties broken by index. -/
def argsortRel (v : List ℚ) (i j : ℕ) : Prop :=
  v.getD i 0 < v.getD j 0 ∨ (v.getD i 0 = v.getD j 0 ∧ i ≤ j)

instance argsortRelDecidable (v : List ℚ) : DecidableRel (argsortRel v) := fun i j => by
  unfold argsortRel
  infer_instance

/-- `np.argsort` as used in `cost_wrapper` (line 243): the indices
`0..N-1` sorted by their values in `v`. numpy's sort is a deterministic
comparison sort; we model it as a stable sort with ties broken by index,
which agrees with it on every tie-free input. -/
def argsort (v : List ℚ) : List ℕ :=
  List.insertionSort (argsortRel v) (List.range v.length)

/-- `cost_wrapper` (lines 232-244): decode the float vector into a
permutation with argsort and evaluate `cost_function` on the data so
ordered. -/
def cost_wrapper (tau : ℚ) (data : List MissionRow) (v : List ℚ) : ℚ :=
  cost_function tau (order_rows data (argsort v))

/-- Mission A of the two-mission scenario: one capability with readiness
0 and dependency 1. -/
def missionA : MissionRow := [(0, 1)]

/-- Mission B of the two-mission scenario: one capability with readiness
0 and dependency 0. -/
def missionB : MissionRow := [(0, 0)]

/-- The scenario data with mission A at index 0 and mission B at index 1. -/
def scenarioData : List MissionRow := [missionA, missionB]

/-- The actions `main` performs inside its try block (lines 294-326):
load the data, generate the simplified CSVs, run the differential
evolution optimizer over bounds `[(0, 1)] * len(use_cases)`, and save
the result files. -/
inductive MainAction where
  | loadData
  | generateCSVs
  | runOptimizer (bounds : List (ℚ × ℚ))
  | saveFiles
  deriving DecidableEq

/-- The sequence of actions `main` performs, as a function of the number
of use cases `n`. The source has no branch on `n`: the optimizer is
invoked unconditionally with `n` copies of the bound `(0, 1)`
(lines 306-312). -/
def main_actions (n : ℕ) : List MainAction :=
  [MainAction.loadData, MainAction.generateCSVs,
   MainAction.runOptimizer (List.replicate n (0, 1)), MainAction.saveFiles]

/-- Whether `main` invokes the differential-evolution optimizer for `n`
use cases. -/
def main_invokes_optimizer (n : ℕ) : Bool :=
  (main_actions n).any (fun a => match a with
    | MainAction.runOptimizer _ => true
    | _ => false)

/-! ### Helper lemmas about the cost evaluator -/

/-- The readiness step is the pointwise maximum of the accumulated
readiness with the forced level of the current row. -/
theorem stepReadiness_eq (tau : ℚ) (lastR : List ℚ) (row : MissionRow) :
    stepReadiness tau lastR row = List.zipWith max lastR (row.map (forcedLevel tau)) := by
  rw [List.zipWith_map_right]
  unfold stepReadiness forcedLevel
  induction lastR generalizing row with
  | nil => simp
  | cons lr lastR ih =>
    cases row with
    | nil => simp
    | cons e row =>
      simp only [List.zipWith_cons_cons, ih]
      congr 1
      by_cases h : e.2 < tau <;> simp [h, max_assoc]

/-- Every entry of a penalty step is zero as soon as the previous
penalty row is all zero: the carried value is the previous penalty. -/
theorem stepPenalty_zero :
    ∀ (lastP lastU : List ℚ), (∀ x ∈ lastP, x = 0) → ∀ x ∈ stepPenalty lastP lastU, x = 0
  | [], _, _ => by simp [stepPenalty]
  | _ :: _, [], _ => by simp [stepPenalty]
  | p :: ps, u :: us, h => by
    intro x hx
    simp only [stepPenalty, List.zipWith_cons_cons, List.mem_cons] at hx
    rcases hx with rfl | hx
    · have hp : p = 0 := h p (by simp)
      subst hp
      split <;> rfl
    · exact stepPenalty_zero ps us (fun y hy => h y (List.mem_cons_of_mem _ hy)) x hx

/-- Every entry of every row of the penalty cost matrix is zero, for any
starting state whose penalty row is all zero. -/
theorem costFold_penalty_zero (tau : ℚ) :
    ∀ (rows : List MissionRow) (lastR lastU lastP : List ℚ), (∀ x ∈ lastP, x = 0) →
      ∀ r ∈ (costFold tau lastR lastU lastP rows).2.2, ∀ x ∈ r, x = 0
  | [], _, _, _, _ => by simp [costFold]
  | row :: rest, lastR, lastU, lastP, h => by
    simp only [costFold, List.mem_cons]
    rintro r (rfl | hr)
    · exact stepPenalty_zero lastP lastU h
    · exact costFold_penalty_zero tau rest _ _ _ (stepPenalty_zero lastP lastU h) r hr

/-- The accumulated readiness never decreases within one step. -/
theorem le_stepReadiness (tau : ℚ) :
    ∀ (lastR : List ℚ) (row : MissionRow), lastR.length ≤ row.length →
      List.Forall₂ (· ≤ ·) lastR (stepReadiness tau lastR row)
  | [], _, _ => by simp [stepReadiness]
  | _ :: _, [], h => by simp at h
  | lr :: lastR, e :: row, h => by
    simp only [stepReadiness, List.zipWith_cons_cons]
    refine List.Forall₂.cons ?_ (le_stepReadiness tau lastR row (by simp at h; exact h))
    by_cases hd : e.2 < tau
    · simp only [if_pos hd]
      exact le_max_left lr e.1
    · simp only [hd, if_false]
      exact le_trans (le_max_left lr e.1) (le_max_left _ 9)

/-- When the new readiness dominates the old one pointwise, the upgrade
costs sum to the difference of the two totals. -/
theorem stepUpgrade_sum {lastR newR : List ℚ} (h : List.Forall₂ (· ≤ ·) lastR newR) :
    (stepUpgrade newR lastR).sum = newR.sum - lastR.sum := by
  induction h with
  | nil => simp [stepUpgrade]
  | cons hab htail ih =>
    simp only [stepUpgrade, List.zipWith_cons_cons, List.sum_cons] at *
    rw [ih, max_eq_right (sub_nonneg.mpr hab)]
    ring

/-- Adding an all-zero list of matching length changes nothing. -/
theorem zipWith_add_zero :
    ∀ (u p : List ℚ), (∀ x ∈ p, x = 0) → u.length = p.length →
      List.zipWith (· + ·) u p = u
  | [], [], _, _ => rfl
  | [], _ :: _, _, h => by simp at h
  | _ :: _, [], _, h => by simp at h
  | a :: u, b :: p, hz, h => by
    have hb : b = 0 := hz b (by simp)
    simp only [List.zipWith_cons_cons, hb, add_zero]
    exact congrArg (List.cons a) (zipWith_add_zero u p (fun x hx => hz x (by simp [hx]))
      (by simp at h; exact h))

/-- The grand total of upgrade-plus-penalty entries telescopes to the
total of the final accumulated readiness row, minus the total of the
starting row, whenever the mission rows all have the capability count
`n` and the starting penalty row is all zero. -/
theorem costFold_cost_sum (tau : ℚ) (n : ℕ) :
    ∀ (rows : List MissionRow) (lastR lastU lastP : List ℚ),
      (∀ r ∈ rows, r.length = n) → lastR.length = n → lastU.length = n → lastP.length = n →
      (∀ x ∈ lastP, x = 0) →
      ((List.zipWith (List.zipWith (· + ·)) (costFold tau lastR lastU lastP rows).2.1
          (costFold tau lastR lastU lastP rows).2.2).map List.sum).sum
        = (rows.foldl (stepReadiness tau) lastR).sum - lastR.sum
  | [], lastR, _, _, _, _, _, _, _ => by simp [costFold]
  | row :: rest, lastR, lastU, lastP, hC, hR, hU, hP, hz => by
    have hrow : row.length = n := hC row (by simp)
    have hz2 : ∀ x ∈ stepPenalty lastP lastU, x = 0 := stepPenalty_zero lastP lastU hz
    have hnp : (stepPenalty lastP lastU).length = n := by simp [stepPenalty, hP, hU]
    have hnr : (stepReadiness tau lastR row).length = n := by simp [stepReadiness, hR, hrow]
    have hnu : (stepUpgrade (stepReadiness tau lastR row) lastR).length = n := by
      simp [stepUpgrade, hnr, hR]
    have hle : List.Forall₂ (· ≤ ·) lastR (stepReadiness tau lastR row) :=
      le_stepReadiness tau lastR row (by rw [hR, hrow])
    have hrec := costFold_cost_sum tau n rest (stepReadiness tau lastR row)
      (stepUpgrade (stepReadiness tau lastR row) lastR) (stepPenalty lastP lastU)
      (fun r hr => hC r (by simp [hr])) hnr hnu hnp hz2
    simp only [costFold, List.zipWith_cons_cons, List.map_cons, List.sum_cons, List.foldl_cons]
    rw [zipWith_add_zero _ _ hz2 (by rw [hnu, hnp]), stepUpgrade_sum hle, hrec]
    ring

/-- For a matrix of aligned rows, the total cost is the total of the
final accumulated readiness row reached after all missions. -/
theorem cost_function_eq_foldl (tau : ℚ) (n : ℕ) (rows : List MissionRow)
    (hC : ∀ r ∈ rows, r.length = n) :
    cost_function tau rows
      = (rows.foldl (stepReadiness tau) (List.replicate n 0)).sum := by
  cases rows with
  | nil =>
    simp [cost_function, cost_progression_matrix, upgrade_cost_matrix, penalty_cost_matrix,
      buildMatrices, costFold, List.sum_replicate]
  | cons r rest =>
    have hr : r.length = n := hC r (by simp)
    have hmap : r.map (fun _ => (0:ℚ)) = List.replicate n 0 := by
      rw [List.map_const', hr]
    have h0 : ∀ x ∈ List.replicate n (0:ℚ), x = 0 := fun x hx => List.eq_of_mem_replicate hx
    have hmain := costFold_cost_sum tau n (r :: rest) (List.replicate n 0)
      (List.replicate n 0) (List.replicate n 0) hC (by simp) (by simp) (by simp) h0
    simp only [cost_function, cost_progression_matrix, upgrade_cost_matrix,
      penalty_cost_matrix, buildMatrices]
    rw [hmap, hmain, List.sum_replicate]
    simp

/-- The pointwise maximum of lists commutes on the right. -/
theorem zipWith_max_right_comm :
    ∀ (z a b : List ℚ),
      List.zipWith max (List.zipWith max z a) b = List.zipWith max (List.zipWith max z b) a
  | [], _, _ => by simp
  | _ :: _, [], _ => by simp
  | _ :: _, _ :: _, [] => by simp
  | x :: z, y :: a, w :: b => by
    simp only [List.zipWith_cons_cons]
    rw [zipWith_max_right_comm z a b, sup_right_comm]

/-- The final accumulated readiness row does not depend on the order of
the mission rows. -/
theorem foldl_stepReadiness_perm (tau : ℚ) {rows1 rows2 : List MissionRow}
    (h : rows1.Perm rows2) (z : List ℚ) :
    rows1.foldl (stepReadiness tau) z = rows2.foldl (stepReadiness tau) z := by
  have key : ∀ rows : List MissionRow, rows.foldl (stepReadiness tau) z
      = (rows.map (fun row => row.map (forcedLevel tau))).foldl
          (fun acc l => List.zipWith max acc l) z := by
    intro rows
    rw [List.foldl_map]
    congr 1
    funext acc row
    exact stepReadiness_eq tau acc row
  rw [key rows1, key rows2]
  exact (h.map _).foldl_eq' (fun x _ y _ w => zipWith_max_right_comm w x y) z

/-- The total cost is invariant under permuting the mission rows. -/
theorem cost_function_perm (tau : ℚ) (n : ℕ) {rows1 rows2 : List MissionRow}
    (h : rows1.Perm rows2) (hC : ∀ r ∈ rows1, r.length = n) :
    cost_function tau rows1 = cost_function tau rows2 := by
  have hC2 : ∀ r ∈ rows2, r.length = n := fun r hr => hC r (h.mem_iff.mpr hr)
  rw [cost_function_eq_foldl tau n rows1 hC, cost_function_eq_foldl tau n rows2 hC2,
    foldl_stepReadiness_perm tau h]

/-- All three matrices have one row per mission, and every row has the
shared capability count, whenever the inputs do. -/
theorem costFold_shape (tau : ℚ) (n : ℕ) :
    ∀ (rows : List MissionRow) (lastR lastU lastP : List ℚ),
      (∀ r ∈ rows, r.length = n) → lastR.length = n → lastU.length = n → lastP.length = n →
      ((costFold tau lastR lastU lastP rows).1.length = rows.length
          ∧ ∀ r ∈ (costFold tau lastR lastU lastP rows).1, r.length = n)
        ∧ ((costFold tau lastR lastU lastP rows).2.1.length = rows.length
          ∧ ∀ r ∈ (costFold tau lastR lastU lastP rows).2.1, r.length = n)
        ∧ ((costFold tau lastR lastU lastP rows).2.2.length = rows.length
          ∧ ∀ r ∈ (costFold tau lastR lastU lastP rows).2.2, r.length = n)
  | [], _, _, _, _, _, _, _ => by simp [costFold]
  | row :: rest, lastR, lastU, lastP, hC, hR, hU, hP => by
    have hrow : row.length = n := hC row (by simp)
    have hnr : (stepReadiness tau lastR row).length = n := by simp [stepReadiness, hR, hrow]
    have hnu : (stepUpgrade (stepReadiness tau lastR row) lastR).length = n := by
      simp [stepUpgrade, hnr, hR]
    have hnp : (stepPenalty lastP lastU).length = n := by simp [stepPenalty, hP, hU]
    have ih := costFold_shape tau n rest (stepReadiness tau lastR row)
      (stepUpgrade (stepReadiness tau lastR row) lastR) (stepPenalty lastP lastU)
      (fun r hr => hC r (by simp [hr])) hnr hnu hnp
    simp only [costFold, List.length_cons, List.mem_cons]
    refine ⟨⟨by rw [ih.1.1], ?_⟩, ⟨by rw [ih.2.1.1], ?_⟩, ⟨by rw [ih.2.2.1], ?_⟩⟩
    · rintro r (rfl | hr)
      · exact hnr
      · exact ih.1.2 r hr
    · rintro r (rfl | hr)
      · exact hnu
      · exact ih.2.1.2 r hr
    · rintro r (rfl | hr)
      · exact hnp
      · exact ih.2.2.2 r hr

/-- Upgrade costs are non-negative entrywise: each is a `max` with 0. -/
theorem stepUpgrade_nonneg : ∀ (a b : List ℚ), ∀ x ∈ stepUpgrade a b, 0 ≤ x
  | [], _ => by simp [stepUpgrade]
  | _ :: _, [] => by simp [stepUpgrade]
  | a :: as, b :: bs => by
    intro x hx
    simp only [stepUpgrade, List.zipWith_cons_cons, List.mem_cons] at hx
    rcases hx with rfl | hx
    · exact le_max_left 0 _
    · exact stepUpgrade_nonneg as bs x hx

/-- Every entry of the upgrade cost matrix is non-negative. -/
theorem costFold_upgrade_nonneg (tau : ℚ) :
    ∀ (rows : List MissionRow) (lastR lastU lastP : List ℚ),
      ∀ r ∈ (costFold tau lastR lastU lastP rows).2.1, ∀ x ∈ r, 0 ≤ x
  | [], _, _, _ => by simp [costFold]
  | row :: rest, lastR, lastU, lastP => by
    simp only [costFold, List.mem_cons]
    rintro r (rfl | hr)
    · exact stepUpgrade_nonneg _ _
    · exact costFold_upgrade_nonneg tau rest _ _ _ r hr

/-- Entrywise sums of non-negative lists are non-negative. -/
theorem zipWith_add_nonneg :
    ∀ (u p : List ℚ), (∀ x ∈ u, 0 ≤ x) → (∀ x ∈ p, 0 ≤ x) →
      ∀ x ∈ List.zipWith (· + ·) u p, 0 ≤ x
  | [], _, _, _ => by simp
  | _ :: _, [], _, _ => by simp
  | a :: u, b :: p, hu, hp => by
    intro x hx
    simp only [List.zipWith_cons_cons, List.mem_cons] at hx
    rcases hx with rfl | hx
    · exact add_nonneg (hu a (by simp)) (hp b (by simp))
    · exact zipWith_add_nonneg u p (fun y hy => hu y (by simp [hy]))
        (fun y hy => hp y (by simp [hy])) x hx

/-- The grand total of the entrywise sum of two entrywise non-negative
matrices is non-negative. -/
theorem matrix_add_sum_nonneg :
    ∀ (us ps : List (List ℚ)),
      (∀ r ∈ us, ∀ x ∈ r, 0 ≤ x) → (∀ r ∈ ps, ∀ x ∈ r, 0 ≤ x) →
      0 ≤ ((List.zipWith (List.zipWith (· + ·)) us ps).map List.sum).sum
  | [], _, _, _ => by simp
  | _ :: _, [], _, _ => by simp
  | u :: us, p :: ps, hu, hp => by
    simp only [List.zipWith_cons_cons, List.map_cons, List.sum_cons]
    have h1 : 0 ≤ (List.zipWith (· + ·) u p).sum :=
      List.sum_nonneg (zipWith_add_nonneg u p (hu u (by simp)) (hp p (by simp)))
    have h2 := matrix_add_sum_nonneg us ps (fun r hr => hu r (by simp [hr]))
      (fun r hr => hp r (by simp [hr]))
    linarith

/-- Every entry of the penalty cost matrix of `cost_function` is zero. -/
theorem penalty_cost_matrix_entries_zero (tau : ℚ) (rows : List MissionRow) :
    ∀ r ∈ penalty_cost_matrix tau rows, ∀ x ∈ r, x = 0 := by
  cases rows with
  | nil => simp [penalty_cost_matrix, buildMatrices]
  | cons r rest =>
    simp only [penalty_cost_matrix, buildMatrices]
    exact costFold_penalty_zero tau (r :: rest) _ _ _ (by simp)

/-- Adding an all-zero matrix of matching shape changes nothing. -/
theorem zipWith_matrix_add_zero :
    ∀ {us ps : List (List ℚ)},
      List.Forall₂ (fun (u p : List ℚ) => u.length = p.length) us ps →
      (∀ r ∈ ps, ∀ x ∈ r, x = 0) →
      List.zipWith (List.zipWith (· + ·)) us ps = us := by
  intro us ps h hz
  induction h with
  | nil => rfl
  | cons hlen htail ih =>
    simp only [List.zipWith_cons_cons]
    congr 1
    · exact zipWith_add_zero _ _ (fun x hx => hz _ (by simp) x hx) hlen
    · exact ih (fun r hr => hz r (by simp [hr]))

/-- Within one step, the entry at any position can only grow. -/
theorem stepReadiness_getD_le (tau : ℚ) :
    ∀ (lastR : List ℚ) (row : MissionRow), lastR.length = row.length → ∀ c : ℕ,
      lastR.getD c 0 ≤ (stepReadiness tau lastR row).getD c 0
  | [], row, h, c => by simp [stepReadiness]
  | _ :: _, [], h, _ => by simp at h
  | lr :: lastR, e :: row, h, c => by
    cases c with
    | zero =>
      simp only [stepReadiness, List.zipWith_cons_cons, List.getD_cons_zero]
      by_cases hd : e.2 < tau
      · simp only [if_pos hd]
        exact le_max_left lr e.1
      · simp only [if_neg hd]
        exact le_trans (le_max_left lr e.1) (le_max_left _ 9)
    | succ c =>
      simp only [stepReadiness, List.zipWith_cons_cons, List.getD_cons_succ]
      exact stepReadiness_getD_le tau lastR row (by simp at h; exact h) c

/-- Consecutive rows of the readiness progression matrix compare
pointwise, for aligned mission rows. -/
theorem costFold_readiness_mono (tau : ℚ) (n : ℕ) :
    ∀ (rows : List MissionRow) (lastR lastU lastP : List ℚ),
      (∀ r ∈ rows, r.length = n) → lastR.length = n →
      ∀ k c : ℕ, k + 1 < (costFold tau lastR lastU lastP rows).1.length →
        ((costFold tau lastR lastU lastP rows).1.getD k []).getD c 0
          ≤ ((costFold tau lastR lastU lastP rows).1.getD (k+1) []).getD c 0
  | [], _, _, _, _, _, k, c, hk => by simp [costFold] at hk
  | row :: rest, lastR, lastU, lastP, hC, hR, k, c, hk => by
    have hrow : row.length = n := hC row (by simp)
    have hnr : (stepReadiness tau lastR row).length = n := by simp [stepReadiness, hR, hrow]
    cases rest with
    | nil => simp [costFold] at hk
    | cons row2 rest2 =>
      cases k with
      | zero =>
        simp only [costFold, List.getD_cons_zero, List.getD_cons_succ]
        exact stepReadiness_getD_le tau _ row2 (by rw [hnr, hC row2 (by simp)]) c
      | succ k =>
        simp only [costFold, List.getD_cons_succ]
        refine costFold_readiness_mono tau n (row2 :: rest2) _ _ _
          (fun r hr => hC r (by simp [hr])) hnr k c ?_
        simp only [costFold, List.length_cons] at hk ⊢
        omega

/-- Row `k` of the readiness progression matrix is the readiness step
applied to the accumulated state after the first `k` missions. -/
theorem costFold_readiness_step (tau : ℚ) :
    ∀ (rows : List MissionRow) (lastR lastU lastP : List ℚ) (k : ℕ), k < rows.length →
      (costFold tau lastR lastU lastP rows).1.getD k []
        = stepReadiness tau ((rows.take k).foldl (stepReadiness tau) lastR) (rows.getD k [])
  | [], _, _, _, k, hk => by simp at hk
  | row :: rest, lastR, lastU, lastP, 0, _ => by simp [costFold]
  | row :: rest, lastR, lastU, lastP, k+1, hk => by
    simp only [costFold, List.getD_cons_succ, List.take_succ_cons, List.foldl_cons]
    exact costFold_readiness_step tau rest _ _ _ k (by simp at hk; exact hk)

/-- Row `k` of the upgrade cost matrix compares the new accumulated
readiness with the accumulated state after the first `k` missions. -/
theorem costFold_upgrade_step (tau : ℚ) :
    ∀ (rows : List MissionRow) (lastR lastU lastP : List ℚ) (k : ℕ), k < rows.length →
      (costFold tau lastR lastU lastP rows).2.1.getD k []
        = stepUpgrade
            (stepReadiness tau ((rows.take k).foldl (stepReadiness tau) lastR) (rows.getD k []))
            ((rows.take k).foldl (stepReadiness tau) lastR)
  | [], _, _, _, k, hk => by simp at hk
  | row :: rest, lastR, lastU, lastP, 0, _ => by simp [costFold]
  | row :: rest, lastR, lastU, lastP, k+1, hk => by
    simp only [costFold, List.getD_cons_succ, List.take_succ_cons, List.foldl_cons]
    exact costFold_upgrade_step tau rest _ _ _ k (by simp at hk; exact hk)

/-- Folding the readiness step over aligned rows preserves the length. -/
theorem foldl_stepReadiness_length (tau : ℚ) (n : ℕ) :
    ∀ (rows : List MissionRow) (lastR : List ℚ), (∀ r ∈ rows, r.length = n) →
      lastR.length = n → (rows.foldl (stepReadiness tau) lastR).length = n
  | [], _, _, h => h
  | row :: rest, lastR, hC, hR => by
    simp only [List.foldl_cons]
    exact foldl_stepReadiness_length tau n rest _ (fun r hr => hC r (by simp [hr]))
      (by simp [stepReadiness, hR, hC row (by simp)])

/-- The entry formula of one readiness step, at an in-range position. -/
theorem stepReadiness_getD (tau : ℚ) (lastR : List ℚ) (row : MissionRow) (c : ℕ)
    (h1 : c < lastR.length) (h2 : c < row.length) :
    (stepReadiness tau lastR row).getD c 0
      = if (row.getD c (0, 0)).2 < tau then max (lastR.getD c 0) (row.getD c (0, 0)).1
        else max (max (lastR.getD c 0) (row.getD c (0, 0)).1) 9 := by
  have hlen : c < (stepReadiness tau lastR row).length := by
    simp only [stepReadiness, List.length_zipWith]
    omega
  rw [List.getD_eq_getElem _ _ hlen]
  simp only [stepReadiness, List.getElem_zipWith]
  rw [List.getD_eq_getElem _ _ h1, List.getD_eq_getElem _ _ h2]

/-- The entry formula of one upgrade step, at an in-range position. -/
theorem stepUpgrade_getD (newR lastR : List ℚ) (c : ℕ)
    (h1 : c < newR.length) (h2 : c < lastR.length) :
    (stepUpgrade newR lastR).getD c 0 = max 0 (newR.getD c 0 - lastR.getD c 0) := by
  have hlen : c < (stepUpgrade newR lastR).length := by
    simp only [stepUpgrade, List.length_zipWith]
    omega
  rw [List.getD_eq_getElem _ _ hlen]
  simp only [stepUpgrade, List.getElem_zipWith]
  rw [List.getD_eq_getElem _ _ h1, List.getD_eq_getElem _ _ h2]

/-- Ordered insertion only consults the comparison relation, so two
relations agreeing on the relevant pairs insert identically. -/
theorem orderedInsert_congr (r s : ℕ → ℕ → Prop) [DecidableRel r] [DecidableRel s] (a : ℕ) :
    ∀ (l : List ℕ), (∀ b ∈ l, (r a b ↔ s a b)) →
      List.orderedInsert r a l = List.orderedInsert s a l
  | [], _ => rfl
  | b :: l, h => by
    simp only [List.orderedInsert]
    by_cases hr : r a b
    · rw [if_pos hr, if_pos ((h b (by simp)).mp hr)]
    · rw [if_neg hr, if_neg (fun hs => hr ((h b (by simp)).mpr hs)),
        orderedInsert_congr r s a l (fun x hx => h x (by simp [hx]))]

/-- Insertion sort only consults the comparison relation on pairs of
list elements. -/
theorem insertionSort_congr (r s : ℕ → ℕ → Prop) [DecidableRel r] [DecidableRel s] :
    ∀ (l : List ℕ), (∀ a ∈ l, ∀ b ∈ l, (r a b ↔ s a b)) →
      List.insertionSort r l = List.insertionSort s l
  | [], _ => rfl
  | a :: l, h => by
    simp only [List.insertionSort]
    rw [insertionSort_congr r s l (fun x hx y hy => h x (by simp [hx]) y (by simp [hy]))]
    refine orderedInsert_congr r s a _ ?_
    intro b hb
    have hb2 : b ∈ l := (List.perm_insertionSort s l).mem_iff.mp hb
    exact h a (by simp) b (by simp [hb2])

/-! ### Claims -/

/-- C1: with the active cost model (threshold `dependency_threshold 1` = 0.9,
floor 9), `cost_function` returns the same total cost for any two
permutations of the same mission index set: the upgrade costs telescope
to the sum of the final accumulated readiness per capability, which is
order-independent, so the objective is constant over the permutation
space. -/
theorem C1_cost_invariant_under_permutation
    (data : List MissionRow) (n : ℕ) (p q : List ℕ)
    (hC : ∀ r ∈ data, r.length = n)
    (hp : ∀ i ∈ p, i < data.length)
    (hpq : p.Perm q) :
    cost_function (dependency_threshold 1) (order_rows data p)
      = cost_function (dependency_threshold 1) (order_rows data q) := by
  have hperm : (order_rows data p).Perm (order_rows data q) := hpq.map _
  have hC1 : ∀ r ∈ order_rows data p, r.length = n := by
    intro r hr
    simp only [order_rows, List.mem_map] at hr
    obtain ⟨i, hi, rfl⟩ := hr
    rw [List.getD_eq_getElem _ _ (hp i hi)]
    exact hC _ (List.getElem_mem _)
  exact cost_function_perm _ n hperm hC1

/-- Witness for C1 at the two-mission scenario with the two orders. -/
theorem C1_witness :
    (∀ r ∈ scenarioData, r.length = 1)
      ∧ (∀ i ∈ [0, 1], i < scenarioData.length)
      ∧ List.Perm [0, 1] [1, 0]
      ∧ cost_function (dependency_threshold 1) (order_rows scenarioData [0, 1])
          = cost_function (dependency_threshold 1) (order_rows scenarioData [1, 0]) :=
  ⟨by decide, by decide, by decide,
    C1_cost_invariant_under_permutation scenarioData 1 [0, 1] [1, 0] (by decide) (by decide)
      (by decide)⟩

/-- C2 counterexample: in the two-mission scenario the reversed order
[B,A] yields exactly the same total cost as [A,B] (both are 9), so the
cost function does not distinguish the two orders, contrary to the
claim that they are distinguished. -/
theorem C2_counterexample :
    cost_function (dependency_threshold 1) (order_rows scenarioData [1, 0])
        = cost_function (dependency_threshold 1) (order_rows scenarioData [0, 1])
      ∧ cost_function (dependency_threshold 1) (order_rows scenarioData [1, 0]) = 9 := by
  constructor <;>
    norm_num [cost_function, cost_progression_matrix, upgrade_cost_matrix, penalty_cost_matrix,
      buildMatrices, costFold, stepReadiness, stepUpgrade, stepPenalty, order_rows, scenarioData,
      missionA, missionB, dependency_threshold]

/-- C2 amended: in the two-mission, one-capability scenario, the
reversed order [B,A] yields a total cost equal to that of [A,B]: both
orders evaluate to 9, so the cost function does not distinguish them. -/
theorem C2_amended :
    cost_function (dependency_threshold 1) (order_rows scenarioData [1, 0]) = 9
      ∧ cost_function (dependency_threshold 1) (order_rows scenarioData [0, 1]) = 9 := by
  constructor <;>
    norm_num [cost_function, cost_progression_matrix, upgrade_cost_matrix, penalty_cost_matrix,
      buildMatrices, costFold, stepReadiness, stepUpgrade, stepPenalty, order_rows, scenarioData,
      missionA, missionB, dependency_threshold]

/-- C3: in the two-mission, one-capability scenario the order [A,B]
costs exactly 9: step A forces readiness to 9 (upgrade 9, penalty 0)
and step B contributes 0. -/
theorem C3_orderAB_cost_nine :
    cost_function (dependency_threshold 1) (order_rows scenarioData [0, 1]) = 9 := by
  norm_num [cost_function, cost_progression_matrix, upgrade_cost_matrix, penalty_cost_matrix,
    buildMatrices, costFold, stepReadiness, stepUpgrade, stepPenalty, order_rows, scenarioData,
    missionA, missionB, dependency_threshold]

/-- C4: for every aligned matrix of mission rows and every threshold,
the penalty cost matrix computed by `cost_function` is identically
zero, and the total cost equals the sum of the upgrade costs alone. -/
theorem C4_penalty_matrix_all_zero (tau : ℚ) (n : ℕ) (rows : List MissionRow)
    (hC : ∀ r ∈ rows, r.length = n) :
    penalty_cost_matrix tau rows = List.replicate rows.length (List.replicate n 0)
      ∧ cost_function tau rows = ((upgrade_cost_matrix tau rows).map List.sum).sum := by
  cases rows with
  | nil =>
    simp [penalty_cost_matrix, upgrade_cost_matrix, cost_function, cost_progression_matrix,
      buildMatrices]
  | cons r rest =>
    have hr : r.length = n := hC r (by simp)
    have hz0 : ∀ x ∈ r.map (fun _ => (0:ℚ)), x = 0 := by simp
    have hlen : (r.map (fun _ => (0:ℚ))).length = n := by simp [hr]
    have hshape := costFold_shape tau n (r :: rest) _ _ _ hC hlen hlen hlen
    have hzero := costFold_penalty_zero tau (r :: rest) (r.map fun _ => 0) (r.map fun _ => 0)
      (r.map fun _ => 0) hz0
    have hpm : penalty_cost_matrix tau (r :: rest)
        = (costFold tau (r.map fun _ => 0) (r.map fun _ => 0) (r.map fun _ => 0)
            (r :: rest)).2.2 := by
      simp only [penalty_cost_matrix, buildMatrices]
    have hum : upgrade_cost_matrix tau (r :: rest)
        = (costFold tau (r.map fun _ => 0) (r.map fun _ => 0) (r.map fun _ => 0)
            (r :: rest)).2.1 := by
      simp only [upgrade_cost_matrix, buildMatrices]
    have hrep : penalty_cost_matrix tau (r :: rest)
        = List.replicate (r :: rest).length (List.replicate n 0) := by
      rw [hpm, List.eq_replicate_iff]
      refine ⟨hshape.2.2.1, fun b hb => ?_⟩
      rw [List.eq_replicate_iff]
      exact ⟨hshape.2.2.2 b hb, fun x hx => hzero b hb x hx⟩
    refine ⟨hrep, ?_⟩
    have hfa : List.Forall₂ (fun (u p : List ℚ) => u.length = p.length)
        (upgrade_cost_matrix tau (r :: rest)) (penalty_cost_matrix tau (r :: rest)) := by
      rw [hum, hpm, List.forall₂_iff_get]
      refine ⟨hshape.2.1.1.trans hshape.2.2.1.symm, ?_⟩
      intro i h1 h2
      have m1 := List.get_mem _ i h1
      have m2 := List.get_mem _ i h2
      rw [hshape.2.1.2 _ m1, hshape.2.2.2 _ m2]
    have hpz : ∀ row2 ∈ penalty_cost_matrix tau (r :: rest), ∀ x ∈ row2, x = 0 := by
      rw [hpm]
      exact hzero
    rw [cost_function, cost_progression_matrix, zipWith_matrix_add_zero hfa hpz]

/-- Witness for C4 at the two-mission scenario. -/
theorem C4_witness :
    (∀ r ∈ scenarioData, r.length = 1)
      ∧ penalty_cost_matrix (dependency_threshold 1) scenarioData
          = List.replicate scenarioData.length (List.replicate 1 0)
      ∧ cost_function (dependency_threshold 1) scenarioData
          = ((upgrade_cost_matrix (dependency_threshold 1) scenarioData).map List.sum).sum :=
  ⟨by decide,
    (C4_penalty_matrix_all_zero (dependency_threshold 1) 1 scenarioData (by decide)).1,
    (C4_penalty_matrix_all_zero (dependency_threshold 1) 1 scenarioData (by decide)).2⟩

/-- C5: the permutation encoder (`argsort` inside `cost_wrapper`) maps
any two vectors with the same relative rank order of components to the
identical permutation; in particular the vectors (0.2, 0.9, 0.5) and
(0.1, 0.99, 0.5001) both map to the permutation [0, 2, 1]. -/
theorem C5_argsort_rank_order :
    (∀ (v w : List ℚ), v.length = w.length →
        (∀ i, i < v.length → ∀ j, j < v.length →
          (v.getD i 0 < v.getD j 0 ↔ w.getD i 0 < w.getD j 0)) →
        argsort v = argsort w)
      ∧ argsort [2/10, 9/10, 5/10] = [0, 2, 1]
      ∧ argsort [1/10, 99/100, 5001/10000] = [0, 2, 1] := by
  refine ⟨?_, ?_, ?_⟩
  · intro v w hlen h
    unfold argsort
    rw [← hlen]
    refine insertionSort_congr _ _ _ ?_
    intro a ha b hb
    rw [List.mem_range] at ha hb
    have hab := h a ha b hb
    have hba := h b hb a ha
    unfold argsortRel
    have heq : v.getD a 0 = v.getD b 0 ↔ w.getD a 0 = w.getD b 0 := by
      rw [← not_ne_iff (a := v.getD a 0), ← not_ne_iff (a := w.getD a 0), ← lt_or_lt_iff_ne,
        ← lt_or_lt_iff_ne]
      exact not_congr (or_congr hab hba)
    exact or_congr hab (and_congr heq Iff.rfl)
  · norm_num [argsort, argsortRel, List.insertionSort, List.orderedInsert, List.range_succ]
  · norm_num [argsort, argsortRel, List.insertionSort, List.orderedInsert, List.range_succ]

/-- Witness for C5 at two integer vectors of equal rank order. -/
theorem C5_witness :
    ([2, 9, 5] : List ℚ).length = ([1, 99, 50] : List ℚ).length
      ∧ argsort [2, 9, 5] = argsort [1, 99, 50] :=
  ⟨rfl, C5_argsort_rank_order.1 [2, 9, 5] [1, 99, 50] rfl (by decide)⟩

/-- C6: for every input vector the permutation encoder's output is a
valid permutation of `0..N-1`: it is a rearrangement of `range N` and
each index below N appears exactly once. -/
theorem C6_argsort_valid_permutation (v : List ℚ) :
    (argsort v).Perm (List.range v.length)
      ∧ ∀ i, i < v.length → (argsort v).count i = 1 := by
  refine ⟨List.perm_insertionSort _ _, fun i hi => ?_⟩
  unfold argsort
  rw [(List.perm_insertionSort (argsortRel v) (List.range v.length)).count_eq]
  exact List.count_eq_one_of_mem (List.nodup_range _) (List.mem_range.mpr hi)

/-- Witness for C6 at a concrete vector and index. -/
theorem C6_witness :
    (argsort [2, 9, 5]).Perm (List.range ([2, 9, 5] : List ℚ).length)
      ∧ 0 < ([2, 9, 5] : List ℚ).length
      ∧ (argsort [2, 9, 5]).count 0 = 1 :=
  ⟨(C6_argsort_valid_permutation [2, 9, 5]).1, by decide,
    (C6_argsort_valid_permutation [2, 9, 5]).2 0 (by decide)⟩

/-- C7: for every threshold and every list of mission rows, the total
cost returned by `cost_function` is non-negative: it is a sum of
non-negative upgrade terms and penalty terms. -/
theorem C7_cost_nonneg (tau : ℚ) (rows : List MissionRow) : 0 ≤ cost_function tau rows := by
  have hu : ∀ r ∈ upgrade_cost_matrix tau rows, ∀ x ∈ r, 0 ≤ x := by
    cases rows with
    | nil => simp [upgrade_cost_matrix, buildMatrices, costFold]
    | cons r rest =>
      simp only [upgrade_cost_matrix, buildMatrices]
      exact costFold_upgrade_nonneg tau (r :: rest) _ _ _
  have hp : ∀ r ∈ penalty_cost_matrix tau rows, ∀ x ∈ r, 0 ≤ x := by
    intro r hr x hx
    rw [penalty_cost_matrix_entries_zero tau rows r hr x hx]
  rw [cost_function, cost_progression_matrix]
  exact matrix_add_sum_nonneg _ _ hu hp

/-- C8: for every capability position, the accumulated-readiness
sequence recorded in the readiness progression matrix is non-decreasing
across mission steps. -/
theorem C8_readiness_monotone (tau : ℚ) (n : ℕ) (rows : List MissionRow)
    (hC : ∀ r ∈ rows, r.length = n) (k c : ℕ)
    (hk : k + 1 < (readiness_progression_matrix tau rows).length) :
    ((readiness_progression_matrix tau rows).getD k []).getD c 0
      ≤ ((readiness_progression_matrix tau rows).getD (k+1) []).getD c 0 := by
  cases rows with
  | nil => simp [readiness_progression_matrix, buildMatrices, costFold] at hk
  | cons r rest =>
    have hr : r.length = n := hC r (by simp)
    have hlen : (r.map (fun _ => (0:ℚ))).length = n := by simp [hr]
    simp only [readiness_progression_matrix, buildMatrices] at hk ⊢
    exact costFold_readiness_mono tau n (r :: rest) _ _ _ hC hlen k c hk

/-- Witness for C8 at the two-mission scenario, first step, first
capability. -/
theorem C8_witness :
    (∀ r ∈ scenarioData, r.length = 1)
      ∧ 0 + 1 < (readiness_progression_matrix (dependency_threshold 1) scenarioData).length
      ∧ ((readiness_progression_matrix (dependency_threshold 1) scenarioData).getD 0 []).getD 0 0
          ≤ ((readiness_progression_matrix (dependency_threshold 1)
              scenarioData).getD 1 []).getD 0 0 :=
  ⟨by decide, by decide,
    C8_readiness_monotone (dependency_threshold 1) 1 scenarioData (by decide) 0 0 (by decide)⟩

/-- C9: at every step `k` and capability position `c`, the entry of the
readiness progression matrix is `max(previous accumulated, baseline)`
when the dependency is strictly below the threshold, and additionally
raised to at least 9 otherwise; the upgrade cost entry is
`max(0, new - previous accumulated)`. The previous accumulated state is
the readiness fold over the first `k` mission rows (all zero for
`k = 0`). -/
theorem C9_required_readiness_formula (n : ℕ) (rows : List MissionRow)
    (hC : ∀ r ∈ rows, r.length = n) (k c : ℕ) (hk : k < rows.length) (hc : c < n) :
    ((readiness_progression_matrix (dependency_threshold 1) rows).getD k []).getD c 0
        = (if ((rows.getD k []).getD c (0, 0)).2 < dependency_threshold 1
            then max (((rows.take k).foldl (stepReadiness (dependency_threshold 1))
                (List.replicate n 0)).getD c 0) ((rows.getD k []).getD c (0, 0)).1
            else max (max (((rows.take k).foldl (stepReadiness (dependency_threshold 1))
                (List.replicate n 0)).getD c 0) ((rows.getD k []).getD c (0, 0)).1) 9)
      ∧ ((upgrade_cost_matrix (dependency_threshold 1) rows).getD k []).getD c 0
          = max 0
              (((readiness_progression_matrix (dependency_threshold 1) rows).getD k []).getD c 0
                - ((rows.take k).foldl (stepReadiness (dependency_threshold 1))
                    (List.replicate n 0)).getD c 0) := by
  cases rows with
  | nil => simp at hk
  | cons r rest =>
    have hr : r.length = n := hC r (by simp)
    have hmap : r.map (fun _ => (0:ℚ)) = List.replicate n 0 := by rw [List.map_const', hr]
    have hprev : (((r :: rest).take k).foldl (stepReadiness (dependency_threshold 1))
        (List.replicate n 0)).length = n :=
      foldl_stepReadiness_length _ n _ _ (fun x hx => hC x (List.take_subset _ _ hx)) (by simp)
    have hrowk : ((r :: rest).getD k []).length = n := by
      rw [List.getD_eq_getElem _ _ hk]
      exact hC _ (List.getElem_mem _)
    have hstep : (stepReadiness (dependency_threshold 1)
        (((r :: rest).take k).foldl (stepReadiness (dependency_threshold 1))
          (List.replicate n 0)) ((r :: rest).getD k [])).length = n := by
      simp only [stepReadiness, List.length_zipWith, hprev, hrowk]
      omega
    simp only [readiness_progression_matrix, upgrade_cost_matrix, buildMatrices]
    rw [hmap, costFold_readiness_step _ (r :: rest) _ _ _ k hk,
      costFold_upgrade_step _ (r :: rest) _ _ _ k hk]
    constructor
    · rw [stepReadiness_getD _ _ _ c (by rw [hprev]; exact hc) (by rw [hrowk]; exact hc)]
    · rw [stepUpgrade_getD _ _ c (by rw [hstep]; exact hc) (by rw [hprev]; exact hc)]

/-- Witness for C9 at the two-mission scenario, first step, first
capability. -/
theorem C9_witness :
    (∀ r ∈ scenarioData, r.length = 1)
      ∧ 0 < scenarioData.length ∧ 0 < 1
      ∧ (((readiness_progression_matrix (dependency_threshold 1) scenarioData).getD 0 []).getD 0 0
          = (if ((scenarioData.getD 0 []).getD 0 (0, 0)).2 < dependency_threshold 1
              then max (((scenarioData.take 0).foldl (stepReadiness (dependency_threshold 1))
                  (List.replicate 1 0)).getD 0 0) ((scenarioData.getD 0 []).getD 0 (0, 0)).1
              else max (max (((scenarioData.take 0).foldl (stepReadiness (dependency_threshold 1))
                  (List.replicate 1 0)).getD 0 0) ((scenarioData.getD 0 []).getD 0 (0, 0)).1) 9)
        ∧ ((upgrade_cost_matrix (dependency_threshold 1) scenarioData).getD 0 []).getD 0 0
            = max 0
                (((readiness_progression_matrix (dependency_threshold 1)
                    scenarioData).getD 0 []).getD 0 0
                  - ((scenarioData.take 0).foldl (stepReadiness (dependency_threshold 1))
                      (List.replicate 1 0)).getD 0 0)) :=
  ⟨by decide, by decide, by decide,
    C9_required_readiness_formula 1 scenarioData (by decide) 0 0 (by decide) (by decide)⟩

/-- C10 counterexample: with exactly one use case (N = 1 ≤ 1), `main`
still invokes the differential-evolution optimizer: its control flow
has no short-circuit on the mission count. -/
theorem C10_counterexample : (1 : ℕ) ≤ 1 ∧ main_invokes_optimizer 1 = true := by decide

/-- C10 amended: for every number of use cases N, including N ≤ 1,
`main` invokes the differential-evolution optimizer, passing the bounds
list `[(0, 1)] * N`; no degenerate-case short-circuit exists. -/
theorem C10_amended (n : ℕ) :
    main_invokes_optimizer n = true
      ∧ MainAction.runOptimizer (List.replicate n (0, 1)) ∈ main_actions n :=
  ⟨rfl, by simp [main_actions]⟩

end Roadmap
